import Mathlib

/-!
Shallow embedding of the codenav_core Rust crate (pagerank.rs, hub_detection.rs,
import_resolver.rs, lib.rs) and proofs about it.

Modelling conventions: Rust strings are lists of characters; hash maps are
association lists whose iteration order is the insertion order (the properties
proved below do not depend on a particular iteration order); f64 arithmetic is
exact rational arithmetic, except that a division whose divisor is zero is
modelled as `none` (IEEE 0.0/0.0 yields NaN, which denotes no real number).
-/

namespace CodeNav

/-- Rust strings are modelled as lists of characters. -/
abbrev Str := List Char

/-- Left-to-right non-overlapping removal of the two-character pattern "./",
exactly as `s.replace("./", "")` scans a Rust string: after a match the scan
resumes past the removed occurrence. -/
def removeDotSlash : Str → Str
  | '.' :: '/' :: rest => removeDotSlash rest
  | c :: rest => c :: removeDotSlash rest
  | [] => []

/-- Left-to-right non-overlapping removal of the three-character pattern "../",
as `s.replace("../", "")`. -/
def removeDotDotSlash : Str → Str
  | '.' :: '.' :: '/' :: rest => removeDotDotSlash rest
  | c :: rest => c :: removeDotDotSlash rest
  | [] => []

/-- `s.replace('\\', "/")`: every backslash becomes a forward slash. -/
def slashify (s : Str) : Str :=
  s.map (fun c => if c = '\\' then '/' else c)

/-- The Unicode White_Space property as used by Rust `char::is_whitespace`:
U+0009..U+000D, U+0020, U+0085, U+00A0, U+1680, U+2000..U+200A, U+2028,
U+2029, U+202F, U+205F and U+3000. -/
def rustIsWhitespace (c : Char) : Bool :=
  (0x09 ≤ c.toNat && c.toNat ≤ 0x0D) || c.toNat = 0x20 || c.toNat = 0x85 ||
  c.toNat = 0xA0 || c.toNat = 0x1680 ||
  (0x2000 ≤ c.toNat && c.toNat ≤ 0x200A) ||
  c.toNat = 0x2028 || c.toNat = 0x2029 || c.toNat = 0x202F ||
  c.toNat = 0x205F || c.toNat = 0x3000

/-- `str::trim`: drop Unicode White_Space characters from both ends. -/
def trimChars (s : Str) : Str :=
  ((s.dropWhile rustIsWhitespace).reverse.dropWhile rustIsWhitespace).reverse

/-- `normalize_import` from import_resolver.rs: trim, replace backslashes by
slashes, remove "./" occurrences, remove "../" occurrences, then strip leading
slashes (`trim_start_matches('/')`). -/
def normalize_import (s : Str) : Str :=
  (removeDotDotSlash (removeDotSlash (slashify (trimChars s)))).dropWhile (fun c => c = '/')

/-- Whether pat is a leading block of s (used to state occurrence of a pattern). -/
def leadsWith : Str → Str → Bool
  | [], _ => true
  | _ :: _, [] => false
  | p :: ps, c :: cs => p == c && leadsWith ps cs

/-- Whether pat occurs as a contiguous substring of s. -/
def containsSub (pat : Str) : Str → Bool
  | [] => leadsWith pat []
  | c :: cs => leadsWith pat (c :: cs) || containsSub pat cs

/-- HashMap `get` modelled on an association list; the first matching key wins
(the maps built below never have duplicate keys). -/
def alGet {α β : Type} [DecidableEq α] : List (α × β) → α → Option β
  | [], _ => none
  | (a, b) :: rest, k => if a = k then some b else alGet rest k

/-- Position of the last occurrence of c in s (`str::rfind`). -/
def lastIndexOf (c : Char) : Str → Option Nat
  | [] => none
  | x :: xs =>
    match lastIndexOf c xs with
    | some i => some (i + 1)
    | none => if x = c then some 0 else none

/-- remove_extension from import_resolver.rs: drop from the last '.' on, but
only when that dot comes after the last '/' (or there is no '/' at all). -/
def remove_extension (path : Str) : Str :=
  match lastIndexOf '.' path with
  | none => path
  | some d =>
    match lastIndexOf '/' path with
    | none => path.take d
    | some sl => if sl < d then path.take d else path

/-- get_basename from import_resolver.rs: the segment after the last '/'
(`path.rsplit('/').next()`, which always yields a value). -/
def get_basename (path : Str) : Str :=
  match lastIndexOf '/' path with
  | none => path
  | some sl => path.drop (sl + 1)

/-- `entry(key).or_default().push(v)` on the derived index; key insertion order
is preserved and pushes to an existing key append at the end of its list. -/
def addToIndex : List (Str × List Str) → Str → Str → List (Str × List Str)
  | [], key, v => [(key, [v])]
  | (k, vs) :: rest, key, v =>
    if k = key then (k, vs ++ [v]) :: rest else (k, vs) :: addToIndex rest key v

/-- The derived normalized lookup index built in ImportResolver::new: for each
file-index entry, the actual path is pushed under (i) the lowercased
extensionless normalized path and (ii) the lowercased extensionless basename. -/
def buildNormalizedIndex (file_index : List (Str × Str)) : List (Str × List Str) :=
  file_index.foldl
    (fun idx p =>
      let idx' := addToIndex idx ((remove_extension p.1).map Char.toLower) p.2
      addToIndex idx' ((remove_extension (get_basename p.1)).map Char.toLower) p.2)
    []

/-- Insertion step of a stable sort by ascending string length. -/
def insertByLen (x : Str) : List Str → List Str
  | [] => [x]
  | y :: ys => if x.length ≤ y.length then x :: y :: ys else y :: insertByLen x ys

/-- Stable insertion sort by ascending string length; it computes the same list
as Rust's stable `sort_by_key(|p| p.len())`. -/
def sortByLen : List Str → List Str
  | [] => []
  | x :: xs => insertByLen x (sortByLen xs)

/-- First element of minimal length, ties broken by the first encountered; the
claim's "candidate with the shortest actual-path string". -/
def firstMinByLen : List Str → Option Str
  | [] => none
  | c :: cs =>
    match firstMinByLen cs with
    | none => some c
    | some m => if c.length ≤ m.length then some c else some m

/-- The directory-index stems probed by strategy 3, in their fixed order. -/
def indexStems : List Str := ["index".toList, "__init__".toList]

/-- First successful file-index lookup among a list of probe keys. -/
def lookupFirst (file_index : List (Str × Str)) : List Str → Option Str
  | [] => none
  | k :: ks =>
    match alGet file_index k with
    | some v => some v
    | none => lookupFirst file_index ks

/-- Strategy 4 of ImportResolver::resolve: look the lowercased normalized query
up in the derived index; a sole candidate is returned directly, several
candidates are sorted by path length and the first is returned. -/
def strategy4 (file_index : List (Str × Str)) (normalized : Str) : Option Str :=
  match alGet (buildNormalizedIndex file_index) (normalized.map Char.toLower) with
  | none => none
  | some candidates =>
    if candidates.length = 1 then candidates.head?
    else if candidates.length ≠ 0 then (sortByLen candidates).head?
    else none

/-- Strategy 4 as claim C2 words it: the sole candidate if there is one, and
among several the candidate with the shortest actual-path string. -/
def strategy4Spec (file_index : List (Str × Str)) (normalized : Str) : Option Str :=
  match alGet (buildNormalizedIndex file_index) (normalized.map Char.toLower) with
  | none => none
  | some candidates =>
    if candidates.length = 1 then candidates.head?
    else if candidates.length ≠ 0 then firstMinByLen candidates
    else none

/-- The key-value pairs whose key ends with the normalized query or with
"/" ++ the normalized query (strategy 5 collection). -/
def suffixMatches (file_index : List (Str × Str)) (normalized : Str) : List (Str × Str) :=
  file_index.filter
    (fun p => normalized.isSuffixOf p.1 || ('/' :: normalized).isSuffixOf p.1)

/-- Strategy 5 of ImportResolver::resolve: return the value of the unique
suffix match, if exactly one key matches. -/
def strategy5 (file_index : List (Str × Str)) (normalized : Str) : Option Str :=
  if (suffixMatches file_index normalized).length = 1 then
    ((suffixMatches file_index normalized).head?).map Prod.snd
  else none

/-- ImportResolver::resolve: the five-strategy cascade, first success wins. -/
def resolve (file_index : List (Str × Str)) (extensions : List Str)
    (import_string : Str) : Option Str :=
  let normalized := normalize_import import_string
  match alGet file_index normalized with
  | some path => some path
  | none =>
    match lookupFirst file_index (extensions.map (fun ext => normalized ++ ext)) with
    | some path => some path
    | none =>
      match lookupFirst file_index
          ((indexStems.map (fun stem =>
            extensions.map (fun ext => normalized ++ '/' :: (stem ++ ext)))).flatten) with
      | some path => some path
      | none =>
        match strategy4 file_index normalized with
        | some path => some path
        | none => strategy5 file_index normalized

/-- The resolution cascade exactly as claim C2 words it, differing from
`resolve` only in the step-4 tie-breaking formulation. -/
def resolveSpec (file_index : List (Str × Str)) (extensions : List Str)
    (import_string : Str) : Option Str :=
  let normalized := normalize_import import_string
  match alGet file_index normalized with
  | some path => some path
  | none =>
    match lookupFirst file_index (extensions.map (fun ext => normalized ++ ext)) with
    | some path => some path
    | none =>
      match lookupFirst file_index
          ((indexStems.map (fun stem =>
            extensions.map (fun ext => normalized ++ '/' :: (stem ++ ext)))).flatten) with
      | some path => some path
      | none =>
        match strategy4Spec file_index normalized with
        | some path => some path
        | none => strategy5 file_index normalized

/-- The edges kept by construction: both endpoints in [0, num_nodes). -/
def acceptedEdges (num_nodes : Nat) (edges : List (Nat × Nat)) : List (Nat × Nat) :=
  edges.filter (fun e => decide (e.1 < num_nodes ∧ e.2 < num_nodes))

/-- In-degree of node i: accepted occurrences targeting i, counted with
multiplicity (self-loops and parallel edges each contribute 1). -/
def inDegreeCount (num_nodes : Nat) (edges : List (Nat × Nat)) (i : Nat) : Nat :=
  (acceptedEdges num_nodes edges).countP (fun e => e.2 == i)

/-- Out-degree of node i over the accepted edges, with multiplicity. -/
def outDegreeCount (num_nodes : Nat) (edges : List (Nat × Nat)) (i : Nat) : Nat :=
  (acceptedEdges num_nodes edges).countP (fun e => e.1 == i)

/-- `*map.entry(k).or_insert(0) += 1` on an association-list map. -/
def bump (k : Nat) : List (Nat × Nat) → List (Nat × Nat)
  | [] => [(k, 1)]
  | (a, v) :: rest => if a = k then (a, v + 1) :: rest else (a, v) :: bump k rest

/-- Degree-map lookup with default 0 (`map.get(&k).copied().unwrap_or(0)`). -/
def lookupD (m : List (Nat × Nat)) (k : Nat) : Nat := (alGet m k).getD 0

/-- The state of hub_detection.rs: node count plus the two degree maps. -/
structure HubDetector where
  num_nodes : Nat
  in_degree : List (Nat × Nat)
  out_degree : List (Nat × Nat)
deriving DecidableEq

/-- HubDetector::new: tally in- and out-degrees of the accepted edges. -/
def HubDetector.new (num_nodes : Nat) (edges : List (Nat × Nat)) : HubDetector :=
  let st := edges.foldl
    (fun st e =>
      if e.1 < num_nodes ∧ e.2 < num_nodes then (bump e.1 st.1, bump e.2 st.2) else st)
    ([], [])
  ⟨num_nodes, st.2, st.1⟩

/-- Insertion step of a stable sort by descending second component. -/
def insertByDegDesc (x : Nat × Nat) : List (Nat × Nat) → List (Nat × Nat)
  | [] => [x]
  | y :: ys => if y.2 < x.2 then x :: y :: ys else y :: insertByDegDesc x ys

/-- Stable insertion sort by descending second component; it computes the same
list as Rust's stable sort_by with comparator b.1.cmp(a.1) on (id, degree)
pairs. -/
def sortByDegDesc : List (Nat × Nat) → List (Nat × Nat)
  | [] => []
  | x :: xs => insertByDegDesc x (sortByDegDesc xs)

/-- HubDetector::find_hubs: in-degree map entries with degree at least
threshold, sorted by in-degree descending. -/
def HubDetector.find_hubs (h : HubDetector) (threshold : Nat) : List (Nat × Nat) :=
  sortByDegDesc (h.in_degree.filter (fun p => decide (threshold ≤ p.2)))

/-- `iter().max().unwrap_or(0)`: on naturals the fold with identity 0 computes
exactly the maximum-with-default-0. -/
def maxD0 (l : List Nat) : Nat := l.foldr max 0

/-- The record returned by HubDetector::get_hub_stats. -/
structure HubStats where
  total_nodes : Nat
  nodes_with_imports : Nat
  total_hubs : Nat
  critical_hubs : Nat
  max_in_degree : Nat
  avg_in_degree : ℚ
deriving DecidableEq

/-- HubDetector::get_hub_stats. -/
def HubDetector.get_hub_stats (h : HubDetector) : HubStats :=
  let in_degrees := h.in_degree.map Prod.snd
  { total_nodes := h.num_nodes
    nodes_with_imports := h.in_degree.length
    total_hubs := (in_degrees.filter (fun d => decide (3 ≤ d))).length
    critical_hubs := (in_degrees.filter (fun d => decide (8 ≤ d))).length
    max_in_degree := maxD0 in_degrees
    avg_in_degree :=
      if in_degrees.isEmpty then 0
      else (in_degrees.sum : ℚ) / (in_degrees.length : ℚ) }

/-- IEEE f64 division as used in lib.rs, on exact rationals: when the divisor
is zero the quotient denotes no real number (0.0/0.0 is NaN), modelled as
`none`. -/
def fdiv (a b : ℚ) : Option ℚ := if b = 0 then none else some (a / b)

/-- The record returned by compute_graph_stats in lib.rs. -/
structure GraphStats where
  total_edges : Nat
  avg_in_degree : Option ℚ
  avg_out_degree : Option ℚ
  max_in_degree : Nat
  max_out_degree : Nat
  isolated_nodes : Nat
deriving DecidableEq

/-- compute_graph_stats from lib.rs: totals over the degree maps of a freshly
built HubDetector, averages divided by num_nodes, and isolated-node count. -/
def compute_graph_stats (num_nodes : Nat) (edges : List (Nat × Nat)) : GraphStats :=
  let detector := HubDetector.new num_nodes edges
  let total_in := (detector.in_degree.map Prod.snd).sum
  let total_out := (detector.out_degree.map Prod.snd).sum
  { total_edges := edges.length
    avg_in_degree := fdiv (total_in : ℚ) (num_nodes : ℚ)
    avg_out_degree := fdiv (total_out : ℚ) (num_nodes : ℚ)
    max_in_degree := maxD0 (detector.in_degree.map Prod.snd)
    max_out_degree := maxD0 (detector.out_degree.map Prod.snd)
    isolated_nodes := ((List.range num_nodes).filter
      (fun i => decide (lookupD detector.in_degree i = 0 ∧
        lookupD detector.out_degree i = 0))).length }

/-- The state of pagerank.rs: adjacency, reverse adjacency and out-degree
vectors plus the damping factor. -/
structure PageRankComputer where
  num_nodes : Nat
  adjacency : List (List Nat)
  in_edges : List (List Nat)
  out_degree : List Nat
  damping : ℚ
deriving DecidableEq

/-- PageRankComputer::new: push each accepted edge into the source's adjacency
list and the target's in-edge list, and count the source's out-degree. -/
def PageRankComputer.new (num_nodes : Nat) (edges : List (Nat × Nat))
    (damping : ℚ) : PageRankComputer :=
  let st := edges.foldl
    (fun st e =>
      if e.1 < num_nodes ∧ e.2 < num_nodes then
        (st.1.set e.1 (st.1.getD e.1 [] ++ [e.2]),
         st.2.1.set e.2 (st.2.1.getD e.2 [] ++ [e.1]),
         st.2.2.set e.1 (st.2.2.getD e.1 0 + 1))
      else st)
    (List.replicate num_nodes [], List.replicate num_nodes [], List.replicate num_nodes 0)
  ⟨num_nodes, st.1, st.2.1, st.2.2, damping⟩

/-- Degree-map invariant tying a built map to its counting function: lookup
computes f, keys are unique, and every stored count is positive. -/
def Counts (m : List (Nat × Nat)) (f : Nat → Nat) : Prop :=
  (∀ k, lookupD m k = f k) ∧ (m.map Prod.fst).Nodup ∧ ∀ p ∈ m, 0 < p.2

/-- One power-iteration update, the loop body of PageRankComputer::compute:
for every node, teleport plus damped dangling mass plus the damped incoming
contributions, all read from the previous score vector. The dangling-node set
is determined by the (immutable) out-degree table, as in the precomputed
dangling_nodes list of the source. -/
def PageRankComputer.step (pr : PageRankComputer) (scores : List ℚ) : List ℚ :=
  let n : ℚ := (pr.num_nodes : ℚ)
  let teleport := (1 - pr.damping) / n
  let danglingSum : ℚ :=
    (((List.range pr.num_nodes).filter
      (fun i => decide (pr.out_degree.getD i 0 = 0))).map
      (fun i => scores.getD i 0)).sum
  let danglingContrib := pr.damping * danglingSum / n
  (List.range pr.num_nodes).map (fun i =>
    teleport + danglingContrib +
      pr.damping * ((pr.in_edges.getD i []).map
        (fun j => scores.getD j 0 / (pr.out_degree.getD j 0 : ℚ))).sum)

/-- The iteration loop of PageRankComputer::compute: compute the new scores,
measure the L1 difference, and stop early (returning the new scores, which
the source keeps after the swap) when the difference is below tolerance. -/
def PageRankComputer.iterate (pr : PageRankComputer) (tolerance : ℚ) :
    Nat → List ℚ → List ℚ
  | 0, scores => scores
  | k + 1, scores =>
    let new_scores := pr.step scores
    let diff := (List.zipWith (fun a b => |a - b|) scores new_scores).sum
    if diff < tolerance then new_scores else pr.iterate tolerance k new_scores

/-- PageRankComputer::compute: empty vector for an empty graph; otherwise run
the power iteration from the uniform vector for at most max_iterations steps
and divide by the total when the total is positive. -/
def PageRankComputer.compute (pr : PageRankComputer) (max_iterations : Nat)
    (tolerance : ℚ) : List ℚ :=
  if pr.num_nodes = 0 then []
  else
    let scores := pr.iterate tolerance max_iterations
      (List.replicate pr.num_nodes (1 / (pr.num_nodes : ℚ)))
    let total := scores.sum
    if 0 < total then scores.map (fun s => s / total) else scores

end CodeNav

open CodeNav

/-- C3: of the four stated normalization laws, three hold, but the law
`normalize("../lib/utils") = "lib/utils"` fails on the code: the `"./"` removal
pass runs before the `"../"` pass and consumes the `"./"` inside `"../"`,
leaving `".lib/utils"`. The crate's own test asserts `"lib/utils"`, so the code
contradicts its own test at this input. -/
theorem normalize_import_laws :
    normalize_import "./utils".toList = "utils".toList ∧
    normalize_import "src\\api\\client".toList = "src/api/client".toList ∧
    normalize_import "/absolute/path".toList = "absolute/path".toList ∧
    normalize_import "../lib/utils".toList = ".lib/utils".toList ∧
    normalize_import "../lib/utils".toList ≠ "lib/utils".toList := by
  decide

/-- C4 counterexample: `normalize_import` is not idempotent. On the input
"..//" one pass yields "./" (removing "./" from "..//" glues the remaining
dot and slash together), and a second pass yields "". -/
theorem normalize_import_not_idempotent :
    normalize_import (normalize_import "..//".toList) ≠ normalize_import "..//".toList ∧
    normalize_import "..//".toList = "./".toList ∧
    normalize_import (normalize_import "..//".toList) = "".toList := by
  decide

/-- Unfolding equation for `removeDotSlash` when the head does not start a "./". -/
theorem removeDotSlash_eq_cons (c : Char) (rest : Str)
    (h : ∀ r, c = '.' → rest = '/' :: r → False) :
    removeDotSlash (c :: rest) = c :: removeDotSlash rest := by
  rw [removeDotSlash.eq_def]
  split
  · rename_i r heq
    injection heq with h1 h2
    exact (h r h1 h2).elim
  · rename_i c' r hk heq
    injection heq with h1 h2
    rw [h1, h2]
  · rename_i heq
    cases heq

/-- Unfolding equation for `removeDotDotSlash` when the head does not start a "../". -/
theorem removeDotDotSlash_eq_cons (c : Char) (rest : Str)
    (h : ∀ r, c = '.' → rest = '.' :: '/' :: r → False) :
    removeDotDotSlash (c :: rest) = c :: removeDotDotSlash rest := by
  rw [removeDotDotSlash.eq_def]
  split
  · rename_i r heq
    injection heq with h1 h2
    exact (h r h1 h2).elim
  · rename_i c' r hk heq
    injection heq with h1 h2
    rw [h1, h2]
  · rename_i heq
    cases heq

/-- Removing "./" occurrences yields a sublist of the input. -/
theorem removeDotSlash_sublist (s : Str) : List.Sublist (removeDotSlash s) s := by
  induction s using removeDotSlash.induct with
  | case1 rest ih =>
    simp only [removeDotSlash]
    exact ih.trans ((List.sublist_cons_self '/' rest).trans
      (List.sublist_cons_self '.' ('/' :: rest)))
  | case2 c rest h ih =>
    rw [removeDotSlash_eq_cons c rest h]
    exact List.Sublist.cons₂ c ih
  | case3 => simp [removeDotSlash]

/-- Removing "../" occurrences yields a sublist of the input. -/
theorem removeDotDotSlash_sublist (s : Str) : List.Sublist (removeDotDotSlash s) s := by
  induction s using removeDotDotSlash.induct with
  | case1 rest ih =>
    simp only [removeDotDotSlash]
    exact ih.trans ((List.sublist_cons_self '/' rest).trans
      (((List.sublist_cons_self '.' ('/' :: rest))).trans
        (List.sublist_cons_self '.' ('.' :: '/' :: rest))))
  | case2 c rest h ih =>
    rw [removeDotDotSlash_eq_cons c rest h]
    exact List.Sublist.cons₂ c ih
  | case3 => simp [removeDotDotSlash]

/-- If "./" does not occur in s, removing it is the identity. -/
theorem removeDotSlash_of_not_contains (s : Str)
    (h : containsSub ['.', '/'] s = false) : removeDotSlash s = s := by
  induction s using removeDotSlash.induct with
  | case1 rest ih => simp [containsSub, leadsWith] at h
  | case2 c rest hno ih =>
    rw [removeDotSlash_eq_cons c rest hno]
    simp only [containsSub, Bool.or_eq_false_iff] at h
    rw [ih h.2]
  | case3 => rfl

/-- If "./" does not occur in s, then neither does "../", and removing "../" is
the identity. -/
theorem removeDotDotSlash_of_not_contains (s : Str)
    (h : containsSub ['.', '/'] s = false) : removeDotDotSlash s = s := by
  induction s using removeDotDotSlash.induct with
  | case1 rest ih => simp [containsSub, leadsWith] at h
  | case2 c rest hno ih =>
    rw [removeDotDotSlash_eq_cons c rest hno]
    simp only [containsSub, Bool.or_eq_false_iff] at h
    rw [ih h.2]
  | case3 => rfl

/-- A string without backslashes is unchanged by `slashify`. -/
theorem slashify_of_not_mem (s : Str) (h : '\\' ∉ s) : slashify s = s := by
  unfold slashify
  rw [List.map_congr_left (g := id) ?pw, List.map_id]
  intro a ha
  simp only [id]
  rw [if_neg ?hne]
  intro hEq
  exact h (hEq ▸ ha)

/-- The normalized form of any import string contains no backslash. -/
theorem backslash_not_mem_normalize (s : Str) : '\\' ∉ normalize_import s := by
  intro hmem
  unfold normalize_import at hmem
  have h1 := (List.dropWhile_sublist (fun c => decide (c = '/'))).subset hmem
  have h2 := (removeDotDotSlash_sublist _).subset h1
  have h3 := (removeDotSlash_sublist _).subset h2
  simp only [slashify, List.mem_map] at h3
  obtain ⟨a, _, hfa⟩ := h3
  by_cases hab : a = '\\'
  · rw [if_pos hab] at hfa
    exact absurd hfa (by decide)
  · rw [if_neg hab] at hfa
    exact hab hfa

/-- The head of a dropWhile result does not satisfy the predicate. -/
theorem dropWhile_head_false (p : Char → Bool) (l : Str) :
    ∀ c, (l.dropWhile p).head? = some c → p c = false := by
  induction l with
  | nil => intro c hc; cases hc
  | cons a as ih =>
    intro c hc
    rw [List.dropWhile_cons] at hc
    by_cases hp : p a
    · rw [if_pos (by simpa using hp)] at hc
      exact ih c hc
    · rw [if_neg (by simpa using hp)] at hc
      cases hc
      simpa using hp

/-- dropWhile is the identity on a list whose head fails the predicate. -/
theorem dropWhile_of_head_false (p : Char → Bool) (l : Str)
    (h : ∀ c, l.head? = some c → p c = false) : l.dropWhile p = l := by
  cases l with
  | nil => rfl
  | cons a as =>
    rw [List.dropWhile_cons, if_neg]
    simp [h a rfl]

/-- C4 (amended): `normalize_import` is idempotent at every string whose
normalized form contains no "./" occurrence and no leading or trailing
whitespace. (The unamended claim fails, see the counterexample "..//".) -/
theorem normalize_import_idempotent_on_normalized (s : Str)
    (h1 : containsSub ['.', '/'] (normalize_import s) = false)
    (h2 : trimChars (normalize_import s) = normalize_import s) :
    normalize_import (normalize_import s) = normalize_import s := by
  conv_lhs => rw [normalize_import]
  rw [h2, slashify_of_not_mem _ (backslash_not_mem_normalize s),
    removeDotSlash_of_not_contains _ h1, removeDotDotSlash_of_not_contains _ h1]
  have : normalize_import s =
      (removeDotDotSlash (removeDotSlash (slashify (trimChars s)))).dropWhile
        (fun c => c = '/') := rfl
  rw [this]
  exact dropWhile_of_head_false _ _ (dropWhile_head_false _ _)

/-- Witness for the amended C4 theorem at the concrete input "lib/utils". -/
theorem normalize_import_idempotent_witness :
    (containsSub ['.', '/'] (normalize_import "lib/utils".toList) = false ∧
      trimChars (normalize_import "lib/utils".toList) = normalize_import "lib/utils".toList) ∧
    normalize_import (normalize_import "lib/utils".toList) = normalize_import "lib/utils".toList :=
  ⟨by decide, normalize_import_idempotent_on_normalized _ (by decide) (by decide)⟩

/-- The head of an insertion step: the inserted element when it is no longer
than the old head, otherwise the old head. -/
theorem insertByLen_head (x : Str) (l : List Str) :
    (insertByLen x l).head? =
      match l.head? with
      | none => some x
      | some m => if x.length ≤ m.length then some x else some m := by
  cases l with
  | nil => rfl
  | cons y ys =>
    simp only [insertByLen, List.head?]
    by_cases h : x.length ≤ y.length
    · rw [if_pos h, if_pos h]
    · rw [if_neg h, if_neg h]

/-- The head of the stable length sort is the first element of minimal length. -/
theorem sortByLen_head (l : List Str) : (sortByLen l).head? = firstMinByLen l := by
  induction l with
  | nil => rfl
  | cons c cs ih =>
    simp only [sortByLen, firstMinByLen, insertByLen_head, ih]

/-- The code's strategy 4 computes exactly the claim's strategy 4. -/
theorem strategy4_eq_spec (file_index : List (Str × Str)) (normalized : Str) :
    strategy4 file_index normalized = strategy4Spec file_index normalized := by
  unfold strategy4 strategy4Spec
  cases alGet (buildNormalizedIndex file_index) (normalized.map Char.toLower) with
  | none => rfl
  | some candidates => simp only [sortByLen_head]

/-- C2: `resolve` equals the cascade described by the claim, first success
wins, for every file index, extension list and import string. -/
theorem resolve_eq_resolveSpec (file_index : List (Str × Str))
    (extensions : List Str) (import_string : Str) :
    resolve file_index extensions import_string =
      resolveSpec file_index extensions import_string := by
  unfold resolve resolveSpec
  simp only [strategy4_eq_spec]

/-- A successful association-list lookup returns an entry of the list. -/
theorem alGet_entry_mem {α β : Type} [DecidableEq α] (m : List (α × β)) (k : α)
    (v : β) (h : alGet m k = some v) : (k, v) ∈ m := by
  induction m with
  | nil => cases h
  | cons q rest ih =>
    obtain ⟨a, b⟩ := q
    simp only [alGet] at h
    by_cases hak : a = k
    · rw [if_pos hak] at h
      injection h with hbv
      rw [← hak, ← hbv]
      exact List.mem_cons_self _ _
    · rw [if_neg hak] at h
      exact List.mem_cons_of_mem _ (ih h)

/-- A successful association-list lookup returns one of the values. -/
theorem alGet_value_mem {α β : Type} [DecidableEq α] (m : List (α × β)) (k : α)
    (v : β) (h : alGet m k = some v) : v ∈ m.map Prod.snd :=
  List.mem_map.mpr ⟨(k, v), alGet_entry_mem m k v h, rfl⟩

/-- A successful probe sequence returns one of the file-index values. -/
theorem lookupFirst_value_mem (file_index : List (Str × Str)) (ks : List Str)
    (v : Str) (h : lookupFirst file_index ks = some v) :
    v ∈ file_index.map Prod.snd := by
  induction ks with
  | nil => cases h
  | cons k ks ih =>
    simp only [lookupFirst] at h
    cases hg : alGet file_index k with
    | some w =>
      rw [hg] at h
      injection h with hw
      exact hw ▸ alGet_value_mem _ _ _ hg
    | none =>
      rw [hg] at h
      exact ih h

/-- An element named by head? is a member. -/
theorem mem_of_head?_eq {α : Type} (l : List α) (a : α) (h : l.head? = some a) :
    a ∈ l :=
  List.mem_of_mem_head? (by simp [h])

/-- Inserting by length is a permutation of pushing in front. -/
theorem insertByLen_perm (x : Str) (l : List Str) :
    List.Perm (insertByLen x l) (x :: l) := by
  induction l with
  | nil => exact List.Perm.refl _
  | cons y ys ih =>
    simp only [insertByLen]
    by_cases h : x.length ≤ y.length
    · rw [if_pos h]
    · rw [if_neg h]
      exact (List.Perm.cons y ih).trans (List.Perm.swap x y ys)

/-- The length sort permutes its input. -/
theorem sortByLen_perm (l : List Str) : List.Perm (sortByLen l) l := by
  induction l with
  | nil => exact List.Perm.refl _
  | cons x xs ih =>
    exact (insertByLen_perm x (sortByLen xs)).trans (List.Perm.cons x ih)

/-- addToIndex only stores previously stored values or the pushed value. -/
theorem addToIndex_entries (P : Str → Prop) (idx : List (Str × List Str))
    (key v : Str) (hidx : ∀ p ∈ idx, ∀ c ∈ p.2, P c) (hv : P v) :
    ∀ p ∈ addToIndex idx key v, ∀ c ∈ p.2, P c := by
  induction idx with
  | nil =>
    intro p hp c hc
    simp only [addToIndex, List.mem_singleton] at hp
    rw [hp] at hc
    simp only [List.mem_singleton] at hc
    rw [hc]
    exact hv
  | cons q rest ih =>
    obtain ⟨a, vs⟩ := q
    intro p hp c hc
    simp only [addToIndex] at hp
    by_cases hak : a = key
    · rw [if_pos hak] at hp
      rcases List.mem_cons.mp hp with h1 | h2
      · rw [h1] at hc
        rcases List.mem_append.mp hc with hL | hR
        · exact hidx (a, vs) (List.mem_cons_self _ _) c hL
        · rw [List.mem_singleton.mp hR]
          exact hv
      · exact hidx p (List.mem_cons_of_mem _ h2) c hc
    · rw [if_neg hak] at hp
      rcases List.mem_cons.mp hp with h1 | h2
      · rw [h1] at hc
        exact hidx (a, vs) (List.mem_cons_self _ _) c hc
      · exact ih (fun r hr => hidx r (List.mem_cons_of_mem _ hr)) p h2 c hc

/-- Generalized invariant of the ImportResolver::new fold: every value stored
in the accumulating derived index satisfies P. -/
theorem foldIndex_entries (P : Str → Prop) :
    ∀ (l : List (Str × Str)) (acc : List (Str × List Str)),
      (∀ p ∈ acc, ∀ c ∈ p.2, P c) → (∀ q ∈ l, P q.2) →
      ∀ p ∈ l.foldl
          (fun idx q =>
            addToIndex (addToIndex idx ((remove_extension q.1).map Char.toLower) q.2)
              ((remove_extension (get_basename q.1)).map Char.toLower) q.2) acc,
        ∀ c ∈ p.2, P c := by
  intro l
  induction l with
  | nil =>
    intro acc hacc _ p hp
    exact hacc p hp
  | cons q rest ih =>
    intro acc hacc hl
    simp only [List.foldl_cons]
    exact ih _
      (addToIndex_entries P _ _ _
        (addToIndex_entries P _ _ _ hacc (hl q (List.mem_cons_self _ _)))
        (hl q (List.mem_cons_self _ _)))
      (fun r hr => hl r (List.mem_cons_of_mem _ hr))

/-- Every candidate stored in the derived normalized index is a file-index value. -/
theorem buildNormalizedIndex_entries (file_index : List (Str × Str)) :
    ∀ p ∈ buildNormalizedIndex file_index, ∀ c ∈ p.2,
      c ∈ file_index.map Prod.snd := by
  have h := foldIndex_entries (fun c => c ∈ file_index.map Prod.snd) file_index []
    (fun p hp => absurd hp (List.not_mem_nil p))
    (fun q hq => List.mem_map.mpr ⟨q, hq, rfl⟩)
  intro p hp
  exact h p hp

/-- Strategy 4 only returns file-index values. -/
theorem strategy4_value_mem (file_index : List (Str × Str)) (normalized : Str)
    (v : Str) (h : strategy4 file_index normalized = some v) :
    v ∈ file_index.map Prod.snd := by
  unfold strategy4 at h
  split at h
  · cases h
  · rename_i candidates heq
    have hcand : ∀ c ∈ candidates, c ∈ file_index.map Prod.snd :=
      buildNormalizedIndex_entries file_index _ (alGet_entry_mem _ _ _ heq)
    by_cases h1 : candidates.length = 1
    · rw [if_pos h1] at h
      exact hcand v (mem_of_head?_eq _ _ h)
    · rw [if_neg h1] at h
      by_cases h0 : candidates.length ≠ 0
      · rw [if_pos h0] at h
        exact hcand v ((sortByLen_perm candidates).mem_iff.mp (mem_of_head?_eq _ _ h))
      · rw [if_neg h0] at h
        cases h

/-- Strategy 5 only returns file-index values. -/
theorem strategy5_value_mem (file_index : List (Str × Str)) (normalized : Str)
    (v : Str) (h : strategy5 file_index normalized = some v) :
    v ∈ file_index.map Prod.snd := by
  unfold strategy5 at h
  by_cases h1 : (suffixMatches file_index normalized).length = 1
  · rw [if_pos h1] at h
    cases hh : (suffixMatches file_index normalized).head? with
    | none =>
      rw [hh] at h
      cases h
    | some q =>
      rw [hh] at h
      injection h with hv
      have hq : q ∈ suffixMatches file_index normalized := mem_of_head?_eq _ _ hh
      have hq' : q ∈ file_index := List.mem_of_mem_filter hq
      exact hv ▸ List.mem_map.mpr ⟨q, hq', rfl⟩
  · rw [if_neg h1] at h
    cases h

/-- C10: whenever resolve returns a path, that path is one of the values of
the file index the resolver was constructed from; resolve never fabricates a
path outside the index. -/
theorem resolve_value_mem (file_index : List (Str × Str)) (extensions : List Str)
    (import_string : Str) (p : Str)
    (h : resolve file_index extensions import_string = some p) :
    p ∈ file_index.map Prod.snd := by
  unfold resolve at h
  dsimp only at h
  split at h
  · rename_i path heq
    injection h with h'
    exact h' ▸ alGet_value_mem _ _ _ heq
  · split at h
    · rename_i path heq
      injection h with h'
      exact h' ▸ lookupFirst_value_mem _ _ _ heq
    · split at h
      · rename_i path heq
        injection h with h'
        exact h' ▸ lookupFirst_value_mem _ _ _ heq
      · split at h
        · rename_i path heq
          injection h with h'
          exact h' ▸ strategy4_value_mem _ _ _ heq
        · exact strategy5_value_mem _ _ _ h

/-- Witness for C10 at a concrete one-entry file index. -/
theorem resolve_value_mem_witness :
    resolve [("a".toList, "b".toList)] [] "a".toList = some "b".toList ∧
    "b".toList ∈ ([("a".toList, "b".toList)] : List (Str × Str)).map Prod.snd :=
  ⟨by decide, resolve_value_mem [("a".toList, "b".toList)] [] "a".toList "b".toList (by decide)⟩

/-- bump at k adds one to the count looked up at k. -/
theorem alGet_bump_self (k : Nat) (m : List (Nat × Nat)) :
    alGet (bump k m) k = some (lookupD m k + 1) := by
  induction m with
  | nil => simp [bump, alGet, lookupD]
  | cons q rest ih =>
    obtain ⟨a, v⟩ := q
    by_cases hak : a = k
    · subst hak
      simp [bump, alGet, lookupD]
    · simp [bump, alGet, hak, lookupD, ih]

/-- bump at k leaves every other key's lookup unchanged. -/
theorem alGet_bump_other (k j : Nat) (m : List (Nat × Nat)) (hjk : j ≠ k) :
    alGet (bump k m) j = alGet m j := by
  induction m with
  | nil => simp [bump, alGet, Ne.symm hjk]
  | cons q rest ih =>
    obtain ⟨a, v⟩ := q
    by_cases hak : a = k
    · subst hak
      simp [bump, alGet, Ne.symm hjk]
    · by_cases haj : a = j
      · subst haj
        simp [bump, alGet, hak]
      · simp [bump, alGet, hak, haj, ih]

/-- The keys after a bump are the old keys plus k. -/
theorem bump_keys_mem (k a : Nat) (m : List (Nat × Nat)) :
    a ∈ (bump k m).map Prod.fst ↔ a ∈ m.map Prod.fst ∨ a = k := by
  induction m with
  | nil => simp [bump]
  | cons q rest ih =>
    obtain ⟨b, v⟩ := q
    by_cases hbk : b = k
    · subst hbk
      simp [bump]
      tauto
    · simp [bump, hbk, ih]
      tauto

/-- bump preserves key uniqueness. -/
theorem bump_keys_nodup (k : Nat) (m : List (Nat × Nat))
    (h : (m.map Prod.fst).Nodup) : ((bump k m).map Prod.fst).Nodup := by
  induction m with
  | nil => simp [bump]
  | cons q rest ih =>
    obtain ⟨b, v⟩ := q
    simp only [List.map_cons, List.nodup_cons] at h
    by_cases hbk : b = k
    · subst hbk
      simpa [bump] using h
    · simp only [bump, if_neg hbk, List.map_cons, List.nodup_cons]
      constructor
      · intro hmem
        rcases (bump_keys_mem k b rest).mp hmem with h1 | h2
        · exact h.1 h1
        · exact hbk h2
      · exact ih h.2

/-- bump preserves positivity of all stored counts. -/
theorem bump_pos (k : Nat) (m : List (Nat × Nat)) (h : ∀ p ∈ m, 0 < p.2) :
    ∀ p ∈ bump k m, 0 < p.2 := by
  induction m with
  | nil =>
    intro p hp
    simp only [bump, List.mem_singleton] at hp
    rw [hp]
    exact Nat.one_pos
  | cons q rest ih =>
    obtain ⟨b, v⟩ := q
    intro p hp
    by_cases hbk : b = k
    · simp only [bump, if_pos hbk] at hp
      rcases List.mem_cons.mp hp with h1 | h2
      · rw [h1]
        exact Nat.succ_pos v
      · exact h p (List.mem_cons_of_mem _ h2)
    · simp only [bump, if_neg hbk] at hp
      rcases List.mem_cons.mp hp with h1 | h2
      · rw [h1]
        exact h (b, v) (List.mem_cons_self _ _)
      · exact ih (fun r hr => h r (List.mem_cons_of_mem _ hr)) p h2

/-- Counting functions can be replaced pointwise. -/
theorem Counts_congr (m : List (Nat × Nat)) (f g : Nat → Nat)
    (hfg : ∀ k, f k = g k) (h : Counts m f) : Counts m g :=
  ⟨fun k => (h.1 k).trans (hfg k), h.2.1, h.2.2⟩

/-- bump realizes the pointwise increment of the counting function. -/
theorem Counts_bump (k : Nat) (m : List (Nat × Nat)) (f : Nat → Nat)
    (h : Counts m f) :
    Counts (bump k m) (fun j => if j = k then f j + 1 else f j) := by
  refine ⟨fun j => ?_, bump_keys_nodup k m h.2.1, bump_pos k m h.2.2⟩
  by_cases hjk : j = k
  · subst hjk
    rw [lookupD, alGet_bump_self, Option.getD_some, h.1 j]
    simp
  · simp only [if_neg hjk]
    rw [lookupD, alGet_bump_other k j m hjk]
    exact h.1 j

/-- Invariant of the HubDetector::new fold: after processing the edge list the
two maps count accepted out- and in-occurrences on top of the initial counts. -/
theorem hub_fold_counts (num_nodes : Nat) :
    ∀ (edges : List (Nat × Nat)) (mo mi : List (Nat × Nat)) (fo fi : Nat → Nat),
      Counts mo fo → Counts mi fi →
      Counts (edges.foldl
          (fun st e =>
            if e.1 < num_nodes ∧ e.2 < num_nodes then (bump e.1 st.1, bump e.2 st.2)
            else st)
          (mo, mi)).1
        (fun k => fo k + (acceptedEdges num_nodes edges).countP (fun e => e.1 == k)) ∧
      Counts (edges.foldl
          (fun st e =>
            if e.1 < num_nodes ∧ e.2 < num_nodes then (bump e.1 st.1, bump e.2 st.2)
            else st)
          (mo, mi)).2
        (fun k => fi k + (acceptedEdges num_nodes edges).countP (fun e => e.2 == k)) := by
  intro edges
  induction edges with
  | nil =>
    intro mo mi fo fi ho hi
    constructor
    · exact Counts_congr _ _ _ (fun k => by simp [acceptedEdges]) ho
    · exact Counts_congr _ _ _ (fun k => by simp [acceptedEdges]) hi
  | cons e rest ih =>
    intro mo mi fo fi ho hi
    by_cases hacc : e.1 < num_nodes ∧ e.2 < num_nodes
    · have hAcc : acceptedEdges num_nodes (e :: rest) =
          e :: acceptedEdges num_nodes rest := by
        simp [acceptedEdges, List.filter_cons, hacc]
      simp only [List.foldl_cons, if_pos hacc]
      have h := ih (bump e.1 mo) (bump e.2 mi)
        (fun j => if j = e.1 then fo j + 1 else fo j)
        (fun j => if j = e.2 then fi j + 1 else fi j)
        (Counts_bump e.1 mo fo ho) (Counts_bump e.2 mi fi hi)
      constructor
      · refine Counts_congr _ _ _ (fun k => ?_) h.1
        rw [hAcc, List.countP_cons]
        by_cases hk : e.1 = k
        · subst hk
          simp
          omega
        · simp [hk, Ne.symm hk]
      · refine Counts_congr _ _ _ (fun k => ?_) h.2
        rw [hAcc, List.countP_cons]
        by_cases hk : e.2 = k
        · subst hk
          simp
          omega
        · simp [hk, Ne.symm hk]
    · have hAcc : acceptedEdges num_nodes (e :: rest) =
          acceptedEdges num_nodes rest := by
        simp [acceptedEdges, List.filter_cons, hacc]
      simp only [List.foldl_cons, if_neg hacc]
      rw [hAcc]
      exact ih mo mi fo fi ho hi

/-- The degree maps of HubDetector::new satisfy the counting invariant. -/
theorem HubDetector_new_counts (num_nodes : Nat) (edges : List (Nat × Nat)) :
    Counts (HubDetector.new num_nodes edges).in_degree
      (inDegreeCount num_nodes edges) ∧
    Counts (HubDetector.new num_nodes edges).out_degree
      (outDegreeCount num_nodes edges) := by
  have hbase : Counts ([] : List (Nat × Nat)) (fun _ => 0) :=
    ⟨fun k => rfl, List.nodup_nil, fun p hp => absurd hp (List.not_mem_nil p)⟩
  have h := hub_fold_counts num_nodes edges [] [] (fun _ => 0) (fun _ => 0) hbase hbase
  constructor
  · exact Counts_congr _ _ _ (fun k => by simp [inDegreeCount]) h.2
  · exact Counts_congr _ _ _ (fun k => by simp [outDegreeCount]) h.1

/-- A fold whose step ignores rejected elements equals the fold over the
filtered list. -/
theorem foldl_filter_accept {α β : Type} (P : β → Prop) [DecidablePred P]
    (g : α → β → α) :
    ∀ (l : List β) (init : α),
      l.foldl (fun acc e => if P e then g acc e else acc) init =
        (l.filter (fun e => decide (P e))).foldl
          (fun acc e => if P e then g acc e else acc) init := by
  intro l
  induction l with
  | nil => intro init; rfl
  | cons e rest ih =>
    intro init
    by_cases hP : P e
    · rw [List.filter_cons, if_pos (by simpa using hP)]
      rw [List.foldl_cons, List.foldl_cons]
      exact ih _
    · rw [List.filter_cons, if_neg (by simpa using hP)]
      rw [List.foldl_cons]
      simp only [if_neg hP]
      exact ih init

/-- C9: construction from the full edge list equals construction from the
pre-filtered accepted sublist, for both the PageRank engine and the hub
detector; with num_nodes = 0 every edge is dropped and all tables are empty;
and each accepted occurrence (self-loops and parallel edges included)
contributes exactly 1 to the target's in-degree and the source's out-degree. -/
theorem construction_drops_invalid_edges (num_nodes : Nat)
    (edges : List (Nat × Nat)) (damping : ℚ) :
    PageRankComputer.new num_nodes edges damping =
      PageRankComputer.new num_nodes (acceptedEdges num_nodes edges) damping ∧
    HubDetector.new num_nodes edges =
      HubDetector.new num_nodes (acceptedEdges num_nodes edges) ∧
    HubDetector.new 0 edges = ⟨0, [], []⟩ ∧
    PageRankComputer.new 0 edges damping = ⟨0, [], [], [], damping⟩ ∧
    (∀ k, lookupD (HubDetector.new num_nodes edges).in_degree k =
      inDegreeCount num_nodes edges k) ∧
    (∀ k, lookupD (HubDetector.new num_nodes edges).out_degree k =
      outDegreeCount num_nodes edges k) := by
  have hPR : ∀ (n : Nat) (l : List (Nat × Nat)),
      PageRankComputer.new n l damping =
        PageRankComputer.new n (acceptedEdges n l) damping := by
    intro n l
    unfold PageRankComputer.new acceptedEdges
    rw [foldl_filter_accept (fun e : Nat × Nat => e.1 < n ∧ e.2 < n)]
  have hHD : ∀ (n : Nat) (l : List (Nat × Nat)),
      HubDetector.new n l = HubDetector.new n (acceptedEdges n l) := by
    intro n l
    unfold HubDetector.new acceptedEdges
    rw [foldl_filter_accept (fun e : Nat × Nat => e.1 < n ∧ e.2 < n)]
  have hAcc0 : acceptedEdges 0 edges = [] := by
    simp [acceptedEdges]
  refine ⟨hPR num_nodes edges, hHD num_nodes edges, ?_, ?_, ?_, ?_⟩
  · rw [hHD 0 edges, hAcc0]
    rfl
  · rw [hPR 0 edges, hAcc0]
    rfl
  · exact (HubDetector_new_counts num_nodes edges).1.1
  · exact (HubDetector_new_counts num_nodes edges).2.1

/-- Inserting by descending degree is a permutation of pushing in front. -/
theorem insertByDegDesc_perm (x : Nat × Nat) (l : List (Nat × Nat)) :
    List.Perm (insertByDegDesc x l) (x :: l) := by
  induction l with
  | nil => exact List.Perm.refl _
  | cons y ys ih =>
    simp only [insertByDegDesc]
    by_cases h : y.2 < x.2
    · rw [if_pos h]
    · rw [if_neg h]
      exact (List.Perm.cons y ih).trans (List.Perm.swap x y ys)

/-- The descending-degree sort permutes its input. -/
theorem sortByDegDesc_perm (l : List (Nat × Nat)) :
    List.Perm (sortByDegDesc l) l := by
  induction l with
  | nil => exact List.Perm.refl _
  | cons x xs ih =>
    exact (insertByDegDesc_perm x (sortByDegDesc xs)).trans (List.Perm.cons x ih)

/-- Inserting into a descending-sorted list keeps it descending-sorted. -/
theorem insertByDegDesc_pairwise (x : Nat × Nat) (l : List (Nat × Nat))
    (h : l.Pairwise (fun a b => b.2 ≤ a.2)) :
    (insertByDegDesc x l).Pairwise (fun a b => b.2 ≤ a.2) := by
  induction l with
  | nil => simp [insertByDegDesc]
  | cons y ys ih =>
    rw [List.pairwise_cons] at h
    by_cases hxy : y.2 < x.2
    · simp only [insertByDegDesc, if_pos hxy]
      rw [List.pairwise_cons]
      constructor
      · intro z hz
        rcases List.mem_cons.mp hz with h1 | h2
        · rw [h1]
          exact Nat.le_of_lt hxy
        · exact Nat.le_trans (h.1 z h2) (Nat.le_of_lt hxy)
      · rw [List.pairwise_cons]
        exact h
    · simp only [insertByDegDesc, if_neg hxy]
      rw [List.pairwise_cons]
      constructor
      · intro z hz
        have hz' : z ∈ x :: ys := (insertByDegDesc_perm x ys).mem_iff.mp hz
        rcases List.mem_cons.mp hz' with h1 | h2
        · rw [h1]
          exact Nat.le_of_not_lt hxy
        · exact h.1 z h2
      · exact ih h.2

/-- The descending-degree sort output is sorted by degree descending. -/
theorem sortByDegDesc_pairwise (l : List (Nat × Nat)) :
    (sortByDegDesc l).Pairwise (fun a b => b.2 ≤ a.2) := by
  induction l with
  | nil => simp [sortByDegDesc]
  | cons x xs ih => exact insertByDegDesc_pairwise x (sortByDegDesc xs) ih

/-- With unique keys, a member's key looks up the member's value. -/
theorem alGet_of_mem_nodup {α β : Type} [DecidableEq α] (m : List (α × β))
    (h : (m.map Prod.fst).Nodup) (p : α × β) (hp : p ∈ m) :
    alGet m p.1 = some p.2 := by
  induction m with
  | nil => cases hp
  | cons q rest ih =>
    obtain ⟨a, b⟩ := q
    simp only [List.map_cons, List.nodup_cons] at h
    rcases List.mem_cons.mp hp with h1 | h2
    · rw [h1]
      simp [alGet]
    · have hane : a ≠ p.1 := by
        intro hEq
        exact h.1 (hEq ▸ List.mem_map.mpr ⟨p, h2, rfl⟩)
      simp only [alGet, if_neg hane]
      exact ih h.2 h2

/-- The membership characterization of a counted degree map: exactly the pairs
(node, count) with positive count. -/
theorem Counts_mem_iff (m : List (Nat × Nat)) (f : Nat → Nat) (h : Counts m f)
    (p : Nat × Nat) : p ∈ m ↔ 0 < f p.1 ∧ p.2 = f p.1 := by
  constructor
  · intro hp
    have hget : alGet m p.1 = some p.2 := alGet_of_mem_nodup m h.2.1 p hp
    have hval : p.2 = f p.1 := by
      rw [← h.1 p.1, lookupD, hget, Option.getD_some]
    exact ⟨hval ▸ h.2.2 p hp, hval⟩
  · intro ⟨hpos, hval⟩
    have hlk : lookupD m p.1 = f p.1 := h.1 p.1
    cases hget : alGet m p.1 with
    | none =>
      rw [lookupD, hget, Option.getD_none] at hlk
      omega
    | some v =>
      rw [lookupD, hget, Option.getD_some] at hlk
      have := alGet_entry_mem m p.1 v hget
      have hpv : p = (p.1, v) := by
        rw [Prod.ext_iff]
        exact ⟨rfl, by omega⟩
      rw [hpv]
      exact this

/-- A node with positive in-degree is within range. -/
theorem inDegreeCount_pos_lt (num_nodes : Nat) (edges : List (Nat × Nat))
    (i : Nat) (h : 0 < inDegreeCount num_nodes edges i) : i < num_nodes := by
  rw [inDegreeCount, List.countP_pos_iff] at h
  obtain ⟨e, he, hei⟩ := h
  rw [acceptedEdges, List.mem_filter] at he
  have h2 : e.2 < num_nodes := (of_decide_eq_true he.2).2
  have : e.2 = i := by simpa using hei
  omega

/-- C5 (amended): find_hubs returns a pair (node, in-degree) exactly for every
node whose in-degree is at least the threshold AND at least 1 (nodes with
in-degree 0 are absent from the degree map and never reported, even when
threshold = 0), with no duplicates, sorted by in-degree descending. -/
theorem find_hubs_spec (num_nodes : Nat) (edges : List (Nat × Nat))
    (threshold : Nat) :
    (∀ p : Nat × Nat, p ∈ (HubDetector.new num_nodes edges).find_hubs threshold ↔
      (p.1 < num_nodes ∧ 0 < inDegreeCount num_nodes edges p.1 ∧
        threshold ≤ p.2 ∧ p.2 = inDegreeCount num_nodes edges p.1)) ∧
    ((HubDetector.new num_nodes edges).find_hubs threshold).Pairwise
      (fun a b => b.2 ≤ a.2) ∧
    (((HubDetector.new num_nodes edges).find_hubs threshold).map Prod.fst).Nodup := by
  have hc := (HubDetector_new_counts num_nodes edges).1
  refine ⟨?_, ?_, ?_⟩
  · intro p
    unfold HubDetector.find_hubs
    rw [(sortByDegDesc_perm _).mem_iff, List.mem_filter,
      Counts_mem_iff _ _ hc p]
    constructor
    · intro ⟨⟨hpos, hval⟩, hth⟩
      exact ⟨inDegreeCount_pos_lt _ _ _ hpos, hpos, of_decide_eq_true hth, hval⟩
    · intro ⟨_, hpos, hth, hval⟩
      exact ⟨⟨hpos, hval⟩, decide_eq_true hth⟩
  · exact sortByDegDesc_pairwise _
  · have hsub : List.Sublist
        ((HubDetector.new num_nodes edges).in_degree.filter
          (fun p => decide (threshold ≤ p.2)))
        (HubDetector.new num_nodes edges).in_degree :=
      List.filter_sublist _
    have hnd : (((HubDetector.new num_nodes edges).in_degree.filter
        (fun p => decide (threshold ≤ p.2))).map Prod.fst).Nodup :=
      (hsub.map Prod.fst).nodup hc.2.1
    exact ((sortByDegDesc_perm _).map Prod.fst).nodup_iff.mpr hnd

/-- C5 counterexample: with one node, no edges and threshold 0, node 0 lies in
[0, 1) and its in-degree 0 meets the threshold, yet find_hubs reports nothing:
the claim fails for threshold = 0. -/
theorem find_hubs_threshold_zero_counterexample :
    (HubDetector.new 1 []).find_hubs 0 = [] ∧
    inDegreeCount 1 [] 0 = 0 ∧ (0 : Nat) < 1 ∧
    (0, inDegreeCount 1 [] 0) ∉ (HubDetector.new 1 []).find_hubs 0 := by
  decide

/-- The keys of a counted map are exactly the nodes with positive count. -/
theorem Counts_keys_mem_iff (m : List (Nat × Nat)) (f : Nat → Nat)
    (h : Counts m f) (a : Nat) : a ∈ m.map Prod.fst ↔ 0 < f a := by
  constructor
  · intro ha
    obtain ⟨p, hp, hpa⟩ := List.mem_map.mp ha
    exact hpa ▸ ((Counts_mem_iff m f h p).mp hp).1
  · intro ha
    exact List.mem_map.mpr ⟨(a, f a), (Counts_mem_iff m f h (a, f a)).mpr ⟨ha, rfl⟩, rfl⟩

/-- The keys of a counted map are a permutation of the in-range nodes with
positive count. -/
theorem Counts_keys_perm (m : List (Nat × Nat)) (f : Nat → Nat) (n : Nat)
    (h : Counts m f) (hbound : ∀ k, 0 < f k → k < n) :
    List.Perm (m.map Prod.fst)
      ((List.range n).filter (fun i => decide (0 < f i))) := by
  refine (List.perm_ext_iff_of_nodup h.2.1 ((List.nodup_range n).filter _)).mpr ?_
  intro a
  rw [Counts_keys_mem_iff m f h a, List.mem_filter, List.mem_range]
  constructor
  · intro ha
    exact ⟨hbound a ha, decide_eq_true ha⟩
  · intro ⟨_, ha⟩
    exact of_decide_eq_true ha

/-- The values of a counted map are the counts of its keys. -/
theorem Counts_values_eq (m : List (Nat × Nat)) (f : Nat → Nat)
    (h : Counts m f) : m.map Prod.snd = (m.map Prod.fst).map f := by
  rw [List.map_map]
  exact List.map_congr_left (fun p hp => ((Counts_mem_iff m f h p).mp hp).2)

/-- Counting entries at or above a positive cutoff equals counting the nodes
at or above it. -/
theorem Counts_filter_length (m : List (Nat × Nat)) (f : Nat → Nat) (n c : Nat)
    (h : Counts m f) (hbound : ∀ k, 0 < f k → k < n) (hc : 1 ≤ c) :
    ((m.map Prod.snd).filter (fun d => decide (c ≤ d))).length =
      ((List.range n).filter (fun i => decide (c ≤ f i))).length := by
  rw [← List.countP_eq_length_filter, ← List.countP_eq_length_filter,
    Counts_values_eq m f h, List.countP_map,
    (Counts_keys_perm m f n h hbound).countP_eq, List.countP_filter]
  rw [List.countP_eq_length_filter, List.countP_eq_length_filter]
  congr 1
  apply List.filter_congr
  intro a _
  by_cases h1 : c ≤ f a
  · have h0 : 0 < f a := by omega
    simp [h1, h0]
  · simp [h1]

/-- Sum of the stored counts equals the sum over positive-count nodes. -/
theorem Counts_sum (m : List (Nat × Nat)) (f : Nat → Nat) (n : Nat)
    (h : Counts m f) (hbound : ∀ k, 0 < f k → k < n) :
    (m.map Prod.snd).sum =
      (((List.range n).filter (fun i => decide (0 < f i))).map f).sum := by
  rw [Counts_values_eq m f h]
  exact ((Counts_keys_perm m f n h hbound).map f).sum_eq

/-- Number of stored entries equals the number of positive-count nodes. -/
theorem Counts_length (m : List (Nat × Nat)) (f : Nat → Nat) (n : Nat)
    (h : Counts m f) (hbound : ∀ k, 0 < f k → k < n) :
    m.length = ((List.range n).filter (fun i => decide (0 < f i))).length := by
  rw [← List.length_map m Prod.fst]
  exact (Counts_keys_perm m f n h hbound).length_eq

/-- Every member bounds maxD0 from below. -/
theorem le_maxD0_of_mem (a : Nat) (l : List Nat) (h : a ∈ l) : a ≤ maxD0 l := by
  induction l with
  | nil => cases h
  | cons b bs ih =>
    rcases List.mem_cons.mp h with h1 | h2
    · rw [h1, maxD0, List.foldr_cons]
      exact Nat.le_max_left _ _
    · refine Nat.le_trans (ih h2) ?_
      show List.foldr max 0 bs ≤ List.foldr max 0 (b :: bs)
      rw [List.foldr_cons]
      exact Nat.le_max_right _ _

/-- maxD0 is at most any bound of all members. -/
theorem maxD0_le (l : List Nat) (x : Nat) (h : ∀ a ∈ l, a ≤ x) : maxD0 l ≤ x := by
  induction l with
  | nil => exact Nat.zero_le x
  | cons b bs ih =>
    rw [maxD0, List.foldr_cons]
    exact Nat.max_le.mpr
      ⟨h b (List.mem_cons_self _ _), ih (fun a ha => h a (List.mem_cons_of_mem _ ha))⟩

/-- The maximum stored count equals the maximum count over all nodes. -/
theorem Counts_maxD0 (m : List (Nat × Nat)) (f : Nat → Nat) (n : Nat)
    (h : Counts m f) (hbound : ∀ k, 0 < f k → k < n) :
    maxD0 (m.map Prod.snd) = maxD0 ((List.range n).map f) := by
  apply Nat.le_antisymm
  · apply maxD0_le
    intro a ha
    rw [Counts_values_eq m f h] at ha
    obtain ⟨k, hk, rfl⟩ := List.mem_map.mp ha
    have hkpos : 0 < f k := (Counts_keys_mem_iff m f h k).mp hk
    exact le_maxD0_of_mem _ _
      (List.mem_map.mpr ⟨k, List.mem_range.mpr (hbound k hkpos), rfl⟩)
  · apply maxD0_le
    intro a ha
    obtain ⟨k, _, rfl⟩ := List.mem_map.mp ha
    by_cases hz : 0 < f k
    · refine le_maxD0_of_mem _ _ ?_
      rw [Counts_values_eq m f h]
      exact List.mem_map.mpr ⟨k, (Counts_keys_mem_iff m f h k).mpr hz, rfl⟩
    · have : f k = 0 := by omega
      rw [this]
      exact Nat.zero_le _

/-- A node with positive out-degree is within range. -/
theorem outDegreeCount_pos_lt (num_nodes : Nat) (edges : List (Nat × Nat))
    (i : Nat) (h : 0 < outDegreeCount num_nodes edges i) : i < num_nodes := by
  rw [outDegreeCount, List.countP_pos_iff] at h
  obtain ⟨e, he, hei⟩ := h
  rw [acceptedEdges, List.mem_filter] at he
  have h1 : e.1 < num_nodes := (of_decide_eq_true he.2).1
  have : e.1 = i := by simpa using hei
  omega

/-- The distinct accepted-edge targets are exactly the positive in-degree
nodes. -/
theorem mem_dedup_targets_iff (num_nodes : Nat) (edges : List (Nat × Nat))
    (a : Nat) :
    a ∈ ((acceptedEdges num_nodes edges).map Prod.snd).dedup ↔
      0 < inDegreeCount num_nodes edges a := by
  rw [List.mem_dedup, List.mem_map, inDegreeCount, List.countP_pos_iff]
  constructor
  · intro ⟨e, he, hea⟩
    exact ⟨e, he, by simpa using hea⟩
  · intro ⟨e, he, hea⟩
    exact ⟨e, he, by simpa using hea⟩

/-- Restricting a sum of counts to the positive-count elements changes
nothing. -/
theorem sum_filter_pos (f : Nat → Nat) (l : List Nat) :
    ((l.filter (fun i => decide (0 < f i))).map f).sum = (l.map f).sum := by
  induction l with
  | nil => rfl
  | cons a as ih =>
    rw [List.filter_cons]
    by_cases hz : 0 < f a
    · simp only [decide_eq_true hz, if_pos]
      rw [List.map_cons, List.map_cons, List.sum_cons, List.sum_cons, ih]
    · have hfz : f a = 0 := by omega
      rw [if_neg (by simpa using hz), ih, List.map_cons, List.sum_cons, hfz]
      simp

/-- C6: get_hub_stats returns: total_nodes = num_nodes; nodes_with_imports =
number of distinct targets of accepted edges; total_hubs and critical_hubs =
numbers of nodes with in-degree at least 3 and at least 8; max_in_degree = the
maximum in-degree (0 when no in-edge exists); avg_in_degree = the arithmetic
mean of the in-degrees over the nodes with at least one in-edge, and 0 when no
in-edge exists. -/
theorem hub_stats_spec (num_nodes : Nat) (edges : List (Nat × Nat)) :
    (HubDetector.new num_nodes edges).get_hub_stats.total_nodes = num_nodes ∧
    (HubDetector.new num_nodes edges).get_hub_stats.nodes_with_imports =
      ((acceptedEdges num_nodes edges).map Prod.snd).dedup.length ∧
    (HubDetector.new num_nodes edges).get_hub_stats.total_hubs =
      ((List.range num_nodes).filter
        (fun i => decide (3 ≤ inDegreeCount num_nodes edges i))).length ∧
    (HubDetector.new num_nodes edges).get_hub_stats.critical_hubs =
      ((List.range num_nodes).filter
        (fun i => decide (8 ≤ inDegreeCount num_nodes edges i))).length ∧
    (HubDetector.new num_nodes edges).get_hub_stats.max_in_degree =
      maxD0 ((List.range num_nodes).map (inDegreeCount num_nodes edges)) ∧
    (HubDetector.new num_nodes edges).get_hub_stats.avg_in_degree =
      (if ((List.range num_nodes).filter
          (fun i => decide (0 < inDegreeCount num_nodes edges i))).length = 0
       then 0
       else ((((List.range num_nodes).filter
          (fun i => decide (0 < inDegreeCount num_nodes edges i))).map
            (inDegreeCount num_nodes edges)).sum : ℚ) /
        (((List.range num_nodes).filter
          (fun i => decide (0 < inDegreeCount num_nodes edges i))).length : ℚ)) := by
  have hc := (HubDetector_new_counts num_nodes edges).1
  have hbound := inDegreeCount_pos_lt num_nodes edges
  unfold HubDetector.get_hub_stats
  dsimp only
  refine ⟨rfl, ?_, ?_, ?_, ?_, ?_⟩
  · rw [Counts_length _ _ num_nodes hc hbound]
    have hperm : List.Perm
        ((acceptedEdges num_nodes edges).map Prod.snd).dedup
        ((List.range num_nodes).filter
          (fun i => decide (0 < inDegreeCount num_nodes edges i))) := by
      refine (List.perm_ext_iff_of_nodup (List.nodup_dedup _)
        ((List.nodup_range _).filter _)).mpr ?_
      intro a
      rw [mem_dedup_targets_iff, List.mem_filter, List.mem_range]
      constructor
      · intro ha
        exact ⟨hbound a ha, decide_eq_true ha⟩
      · intro ⟨_, ha⟩
        exact of_decide_eq_true ha
    exact hperm.length_eq.symm
  · exact Counts_filter_length _ _ num_nodes 3 hc hbound (by omega)
  · exact Counts_filter_length _ _ num_nodes 8 hc hbound (by omega)
  · exact Counts_maxD0 _ _ num_nodes hc hbound
  · have hlen : ((HubDetector.new num_nodes edges).in_degree.map Prod.snd).length =
        ((List.range num_nodes).filter
          (fun i => decide (0 < inDegreeCount num_nodes edges i))).length := by
      rw [List.length_map]
      exact Counts_length _ _ num_nodes hc hbound
    have hsum := Counts_sum _ _ num_nodes hc hbound
    by_cases hW : ((List.range num_nodes).filter
        (fun i => decide (0 < inDegreeCount num_nodes edges i))).length = 0
    · rw [if_pos hW]
      rw [if_pos ?emp]
      case emp =>
        rw [List.isEmpty_iff_length_eq_zero, hlen]
        exact hW
    · rw [if_neg ?emp, if_neg hW, hsum, hlen]
      case emp =>
        rw [List.isEmpty_iff_length_eq_zero, hlen]
        exact hW

/-- C7: compute_graph_stats reports the raw input edge count, averages equal
to (sum of all in- and out-degrees) divided by num_nodes under IEEE division,
the maxima of the degree tables (equivalently, over all nodes), and the count
of nodes with both degrees zero. -/
theorem compute_graph_stats_spec (num_nodes : Nat) (edges : List (Nat × Nat)) :
    (compute_graph_stats num_nodes edges).total_edges = edges.length ∧
    (compute_graph_stats num_nodes edges).avg_in_degree =
      fdiv (((List.range num_nodes).map (inDegreeCount num_nodes edges)).sum : ℚ)
        (num_nodes : ℚ) ∧
    (compute_graph_stats num_nodes edges).avg_out_degree =
      fdiv (((List.range num_nodes).map (outDegreeCount num_nodes edges)).sum : ℚ)
        (num_nodes : ℚ) ∧
    (compute_graph_stats num_nodes edges).max_in_degree =
      maxD0 ((List.range num_nodes).map (inDegreeCount num_nodes edges)) ∧
    (compute_graph_stats num_nodes edges).max_out_degree =
      maxD0 ((List.range num_nodes).map (outDegreeCount num_nodes edges)) ∧
    (compute_graph_stats num_nodes edges).isolated_nodes =
      ((List.range num_nodes).filter
        (fun i => decide (inDegreeCount num_nodes edges i = 0 ∧
          outDegreeCount num_nodes edges i = 0))).length := by
  have hcin := (HubDetector_new_counts num_nodes edges).1
  have hcout := (HubDetector_new_counts num_nodes edges).2
  unfold compute_graph_stats
  dsimp only
  refine ⟨rfl, ?_, ?_, ?_, ?_, ?_⟩
  · rw [Counts_sum _ _ num_nodes hcin (inDegreeCount_pos_lt num_nodes edges),
      sum_filter_pos]
  · rw [Counts_sum _ _ num_nodes hcout (outDegreeCount_pos_lt num_nodes edges),
      sum_filter_pos]
  · exact Counts_maxD0 _ _ num_nodes hcin (inDegreeCount_pos_lt num_nodes edges)
  · exact Counts_maxD0 _ _ num_nodes hcout (outDegreeCount_pos_lt num_nodes edges)
  · congr 1
    apply List.filter_congr
    intro a _
    apply decide_eq_decide.mpr
    rw [hcin.1 a, hcout.1 a]

/-- C8 evaluation at the failing input: with num_nodes = 0 and no edges every
count field is 0, but both averages are 0.0/0.0, i.e. NaN (modelled `none`),
not well-defined real numbers as the claim demands. -/
theorem compute_graph_stats_zero_nodes_nan :
    (compute_graph_stats 0 []).total_edges = 0 ∧
    (compute_graph_stats 0 []).max_in_degree = 0 ∧
    (compute_graph_stats 0 []).max_out_degree = 0 ∧
    (compute_graph_stats 0 []).isolated_nodes = 0 ∧
    (compute_graph_stats 0 []).avg_in_degree = none ∧
    (compute_graph_stats 0 []).avg_out_degree = none := by
  decide

/-- Entries read with default 0 from a nonnegative vector are nonnegative. -/
theorem getD_nonneg (scores : List ℚ) (h : ∀ x ∈ scores, 0 ≤ x) (j : Nat) :
    0 ≤ scores.getD j 0 := by
  rcases Nat.lt_or_ge j scores.length with hj | hj
  · rw [List.getD_eq_getElem scores 0 hj]
    exact h _ (List.getElem_mem hj)
  · rw [List.getD_eq_default scores 0 hj]

/-- The step output has one entry per node. -/
theorem step_length (pr : PageRankComputer) (scores : List ℚ) :
    (pr.step scores).length = pr.num_nodes := by
  simp [PageRankComputer.step]

/-- With damping in (0,1) and nonnegative input, every step output entry is
strictly positive: it is at least the positive teleport term. -/
theorem step_pos (pr : PageRankComputer) (hn : 0 < pr.num_nodes)
    (hd0 : 0 < pr.damping) (hd1 : pr.damping < 1) (scores : List ℚ)
    (hs : ∀ x ∈ scores, 0 ≤ x) : ∀ x ∈ pr.step scores, 0 < x := by
  intro x hx
  simp only [PageRankComputer.step, List.mem_map] at hx
  obtain ⟨i, hi, rfl⟩ := hx
  have hnQ : (0 : ℚ) < (pr.num_nodes : ℚ) := by exact_mod_cast hn
  have hteleport : 0 < (1 - pr.damping) / (pr.num_nodes : ℚ) :=
    div_pos (by linarith) hnQ
  have hdsum : (0 : ℚ) ≤ (((List.range pr.num_nodes).filter
      (fun i => decide (pr.out_degree.getD i 0 = 0))).map
      (fun i => scores.getD i 0)).sum := by
    apply List.sum_nonneg
    intro y hy
    obtain ⟨j, _, rfl⟩ := List.mem_map.mp hy
    exact getD_nonneg scores hs j
  have hdc : (0 : ℚ) ≤ pr.damping * (((List.range pr.num_nodes).filter
      (fun i => decide (pr.out_degree.getD i 0 = 0))).map
      (fun i => scores.getD i 0)).sum / (pr.num_nodes : ℚ) :=
    div_nonneg (mul_nonneg hd0.le hdsum) hnQ.le
  have hinc : (0 : ℚ) ≤ ((pr.in_edges.getD i []).map
      (fun j => scores.getD j 0 / (pr.out_degree.getD j 0 : ℚ))).sum := by
    apply List.sum_nonneg
    intro y hy
    obtain ⟨j, _, rfl⟩ := List.mem_map.mp hy
    exact div_nonneg (getD_nonneg scores hs j) (by positivity)
  linarith [mul_nonneg hd0.le hinc]

/-- The iteration loop preserves length, nonnegativity and positive total. -/
theorem iterate_inv (pr : PageRankComputer) (hn : 0 < pr.num_nodes)
    (hd0 : 0 < pr.damping) (hd1 : pr.damping < 1) (tolerance : ℚ) :
    ∀ (k : Nat) (scores : List ℚ), scores.length = pr.num_nodes →
      (∀ x ∈ scores, 0 ≤ x) → 0 < scores.sum →
      (pr.iterate tolerance k scores).length = pr.num_nodes ∧
      (∀ x ∈ pr.iterate tolerance k scores, 0 ≤ x) ∧
      0 < (pr.iterate tolerance k scores).sum := by
  intro k
  induction k with
  | zero =>
    intro scores h1 h2 h3
    exact ⟨h1, h2, h3⟩
  | succ k ih =>
    intro scores h1 h2 h3
    have hpos := step_pos pr hn hd0 hd1 scores h2
    have hlen := step_length pr scores
    have hne : pr.step scores ≠ [] :=
      List.length_pos.mp (by rw [hlen]; exact hn)
    have hsum : 0 < (pr.step scores).sum := List.sum_pos _ hpos hne
    simp only [PageRankComputer.iterate]
    by_cases hdiff :
      (List.zipWith (fun a b => |a - b|) scores (pr.step scores)).sum < tolerance
    · rw [if_pos hdiff]
      exact ⟨hlen, fun x hx => (hpos x hx).le, hsum⟩
    · rw [if_neg hdiff]
      exact ih (pr.step scores) hlen (fun x hx => (hpos x hx).le) hsum

/-- Dividing every entry divides the sum. -/
theorem sum_map_div (l : List ℚ) (t : ℚ) :
    (l.map (fun s => s / t)).sum = l.sum / t := by
  induction l with
  | nil => simp
  | cons a as ih => rw [List.map_cons, List.sum_cons, List.sum_cons, ih, add_div]

/-- The compute contract for any engine state with damping in (0,1): empty
vector exactly for an empty graph, one nonnegative score per node, and an
exactly normalized total (hence within any positive tolerance of 1). -/
theorem compute_spec_general (pr : PageRankComputer) (hd0 : 0 < pr.damping)
    (hd1 : pr.damping < 1) (max_iterations : Nat) (tolerance : ℚ) :
    (pr.num_nodes = 0 → pr.compute max_iterations tolerance = []) ∧
    (pr.compute max_iterations tolerance).length = pr.num_nodes ∧
    (∀ x ∈ pr.compute max_iterations tolerance, 0 ≤ x) ∧
    (0 < pr.num_nodes →
      |(pr.compute max_iterations tolerance).sum - 1| < 1 / 1000000000) := by
  by_cases hn : pr.num_nodes = 0
  · have hc : pr.compute max_iterations tolerance = [] := by
      unfold PageRankComputer.compute
      rw [if_pos hn]
    refine ⟨fun _ => hc, ?_, ?_, ?_⟩
    · rw [hc, hn]
      rfl
    · rw [hc]
      intro x hx
      cases hx
    · intro h0
      omega
  · have hn' : 0 < pr.num_nodes := Nat.pos_of_ne_zero hn
    have hnQ : (0 : ℚ) < (pr.num_nodes : ℚ) := by exact_mod_cast hn'
    have hinit_len : (List.replicate pr.num_nodes (1 / (pr.num_nodes : ℚ))).length =
        pr.num_nodes := List.length_replicate _ _
    have hinit_nonneg : ∀ x ∈ List.replicate pr.num_nodes (1 / (pr.num_nodes : ℚ)),
        (0 : ℚ) ≤ x := by
      intro x hx
      rw [(List.mem_replicate.mp hx).2]
      positivity
    have hinit_sum : (0 : ℚ) <
        (List.replicate pr.num_nodes (1 / (pr.num_nodes : ℚ))).sum := by
      rw [List.sum_replicate, nsmul_eq_mul, mul_one_div, div_self (ne_of_gt hnQ)]
      norm_num
    have hinv := iterate_inv pr hn' hd0 hd1 tolerance max_iterations
      (List.replicate pr.num_nodes (1 / (pr.num_nodes : ℚ)))
      hinit_len hinit_nonneg hinit_sum
    have hcomp : pr.compute max_iterations tolerance =
        (pr.iterate tolerance max_iterations
          (List.replicate pr.num_nodes (1 / (pr.num_nodes : ℚ)))).map
          (fun s => s / (pr.iterate tolerance max_iterations
            (List.replicate pr.num_nodes (1 / (pr.num_nodes : ℚ)))).sum) := by
      unfold PageRankComputer.compute
      rw [if_neg hn]
      dsimp only
      rw [if_pos hinv.2.2]
    refine ⟨fun h0 => absurd h0 hn, ?_, ?_, ?_⟩
    · rw [hcomp, List.length_map, hinv.1]
    · rw [hcomp]
      intro x hx
      obtain ⟨y, hy, rfl⟩ := List.mem_map.mp hx
      exact div_nonneg (hinv.2.1 y hy) hinv.2.2.le
    · intro _
      rw [hcomp, sum_map_div, div_self (ne_of_gt hinv.2.2)]
      norm_num

/-- C1: for every graph, damping in (0,1), max_iterations at least 1 and
positive tolerance, PageRank compute returns the empty vector when num_nodes
is 0, and otherwise exactly num_nodes scores, each nonnegative, whose sum is
within 1e-9 of 1 after the final normalization (the rational-arithmetic model
normalizes exactly, so the distance is 0). -/
theorem pagerank_compute_spec (num_nodes : Nat) (edges : List (Nat × Nat))
    (damping : ℚ) (max_iterations : Nat) (tolerance : ℚ)
    (hd0 : 0 < damping) (hd1 : damping < 1) (hmi : 1 ≤ max_iterations)
    (htol : 0 < tolerance) :
    (num_nodes = 0 →
      (PageRankComputer.new num_nodes edges damping).compute
        max_iterations tolerance = []) ∧
    ((PageRankComputer.new num_nodes edges damping).compute
      max_iterations tolerance).length = num_nodes ∧
    (∀ x ∈ (PageRankComputer.new num_nodes edges damping).compute
      max_iterations tolerance, 0 ≤ x) ∧
    (0 < num_nodes →
      |((PageRankComputer.new num_nodes edges damping).compute
        max_iterations tolerance).sum - 1| < 1 / 1000000000) :=
  compute_spec_general (PageRankComputer.new num_nodes edges damping) hd0 hd1
    max_iterations tolerance

/-- Witness for C1 at the two-node graph with one edge, damping 17/20, one
iteration and tolerance 1/1000000. -/
theorem pagerank_compute_witness :
    ((0 : ℚ) < 17 / 20 ∧ (17 : ℚ) / 20 < 1 ∧ 1 ≤ 1 ∧ (0 : ℚ) < 1 / 1000000) ∧
    (((2 : Nat) = 0 →
      (PageRankComputer.new 2 [(0, 1)] (17 / 20)).compute 1 (1 / 1000000) = []) ∧
    ((PageRankComputer.new 2 [(0, 1)] (17 / 20)).compute 1 (1 / 1000000)).length = 2 ∧
    (∀ x ∈ (PageRankComputer.new 2 [(0, 1)] (17 / 20)).compute 1 (1 / 1000000),
      0 ≤ x) ∧
    (0 < 2 →
      |((PageRankComputer.new 2 [(0, 1)] (17 / 20)).compute 1 (1 / 1000000)).sum - 1| <
        1 / 1000000000)) :=
  ⟨⟨by norm_num, by norm_num, le_refl 1, by norm_num⟩,
    pagerank_compute_spec 2 [(0, 1)] (17 / 20) 1 (1 / 1000000)
      (by norm_num) (by norm_num) (le_refl 1) (by norm_num)⟩
